import Mathlib

set_option linter.unusedVariables false

/-!
Verification of the variable-length string column `ColumnIxJson`
(src/clickhouse/columns/ix-json.cpp / ix-json.h) against its specification.

The column state is embedded shallowly:
  * `Block` models `ColumnIxJson::Block`, with the bytes written so far as a list;
  * `View` models one `std::string_view` entry of `items_`, recording symbolically
    which storage it points into (arena block / owned-data store / external memory);
  * `ColumnIxJson` carries the three members `items_`, `blocks_`, `append_data_`.
Byte strings and streams are lists of natural numbers.  The wire-codec primitives
declared in wire_format.h are not among the given sources and are modelled from the
specification (fixed 8-byte unsigned length prefix followed by the raw bytes).
-/

namespace Clickhouse

/-- Byte strings and byte streams are modelled as lists of natural numbers. -/
abbrev Bytes := List Nat

/-- The constant `DEFAULT_BLOCK_SIZE = 4096` from the anonymous namespace of
ix-json.cpp. -/
def DEFAULT_BLOCK_SIZE : Nat := 4096

/-- Arena block, `struct ColumnIxJson::Block`.  The C++ block owns a raw buffer of
`capacity` bytes plus a write offset `size`; only the first `size` bytes are ever
meaningful, so we model exactly those as the list `data` (hence `size = data.length`)
and keep the fixed `capacity` alongside. -/
structure Block where
  capacity : Nat
  data : Bytes
  deriving DecidableEq

instance : Inhabited Block := ⟨⟨0, []⟩⟩

/-- The block's current write offset (`size` member): number of bytes written. -/
def Block.size (b : Block) : Nat := b.data.length

/-- Member `Block::GetAvailable() = capacity - size`.  Subtraction is the truncated
natural subtraction; it agrees with the C++ `size_t` subtraction on every state with
`size ≤ capacity`, an invariant all reachable blocks satisfy. -/
def Block.GetAvailable (b : Block) : Nat := b.capacity - b.size

/-- Member `Block::AppendUnsafe(str)`: copies `str` at the tail, advances the write
offset, and returns the view over the copied region.  The returned pair of numbers
is (offset within this block, length); the column attaches the block index. -/
def Block.AppendUnsafeCopy (b : Block) (str : Bytes) : Block × Nat × Nat :=
  ({ b with data := b.data ++ str }, b.size, str.length)

/-- One entry of the row index `items_`: a `std::string_view`.  In C++ this is a raw
(pointer, length) pair; here we record where the pointer points: into arena block
`blockIdx` at byte `offset`, into entry `idx` of the owned-data store `append_data_`,
or into caller-owned external memory (whose bytes we carry directly, since the column
neither owns nor ever changes them). -/
inductive View where
  | arena (blockIdx offset len : Nat)
  | owned (idx len : Nat)
  | external (bytes : Bytes)
  deriving DecidableEq

/-- The length of the view (`std::string_view::size()`). -/
def View.size : View → Nat
  | .arena _ _ len => len
  | .owned _ len => len
  | .external bs => bs.length

/-- The helper `ComputeTotalSize(strings, begin, len)` from the anonymous namespace of
ix-json.cpp, instantiated at a container of string views: clamps `len` to
`strings.size() - begin` and sums `strings[i].size()` over `[begin, begin + len)`.
The C++ default argument `len = SIZE_MAX` is rendered by passing the list length. -/
def ComputeTotalSize (strings : List View) (b : Nat) (l : Nat) : Nat :=
  if b < strings.length then
    (((strings.drop b).take (min l (strings.length - b))).map View.size).sum
  else 0

/-- State of a `ColumnIxJson`: the row index `items_` (vector of string views), the
arena `blocks_`, and the owned-data store `append_data_` (deque of strings). -/
structure ColumnIxJson where
  items : List View
  blocks : List Block
  append_data : List Bytes
  deriving DecidableEq

namespace ColumnIxJson

/-- The default constructor `ColumnIxJson()`: a fresh empty column (the `reserve`
calls of the other constructors do not change observable state). -/
def mk0 : ColumnIxJson := ⟨[], [], []⟩

/-- Member `Size() = items_.size()`. -/
def Size (c : ColumnIxJson) : Nat := c.items.length

/-- The bytes a view denotes, read against this column's state: dereferencing the
C++ `string_view` pointer.  Out-of-range cases, which never arise for the views this
column itself creates, resolve to the empty string. -/
def resolve (c : ColumnIxJson) (v : View) : Bytes :=
  match v with
  | .arena b off len =>
    match c.blocks[b]? with
    | some blk => (blk.data.drop off).take len
    | none => []
  | .owned i _ =>
    match c.append_data[i]? with
    | some s => s
    | none => []
  | .external bs => bs

/-- Member `At(n) = items_.at(n)`, bounds-checked: `none` models the `std::out_of_range`
throw; on success we return the bytes the stored view denotes. -/
def At (c : ColumnIxJson) (n : Nat) : Option Bytes :=
  c.items[n]?.map c.resolve

/-- The column's rows as byte strings, in row-index order. -/
def Rows (c : ColumnIxJson) : List Bytes := c.items.map c.resolve

/-- The private member `ColumnIxJson::AppendUnsafe(str)`:
`items_.emplace_back(blocks_.back().AppendUnsafe(str))`.  Calling it with no blocks is
undefined in C++ and unreachable (every caller first ensures a block exists); we return
the column unchanged in that case. -/
def AppendUnsafeRow (c : ColumnIxJson) (str : Bytes) : ColumnIxJson :=
  match c.blocks.getLast? with
  | none => c
  | some blk =>
    let r := blk.AppendUnsafeCopy str
    { c with
      blocks := c.blocks.dropLast ++ [r.1],
      items := c.items ++ [View.arena (c.blocks.length - 1) r.2.1 r.2.2] }

/-- Member `Append(std::string_view str)`, the managed-copy append: if no block exists
or the current block's remaining capacity is smaller than the string, push a new block
of capacity `max(DEFAULT_BLOCK_SIZE, str.size())`; then copy `str` into the last block
and push the view (the final line inlines the private `AppendUnsafe`). -/
def Append (c : ColumnIxJson) (str : Bytes) : ColumnIxJson :=
  let c1 :=
    if c.blocks.length = 0 ∨ (c.blocks.getLastD default).GetAvailable < str.length then
      { c with blocks := c.blocks ++ [⟨max DEFAULT_BLOCK_SIZE str.length, []⟩] }
    else c
  c1.AppendUnsafeRow str

/-- Member `Append(const char* str)`: wraps the C string in a view of length
`strlen(str)`, i.e. the bytes before the first NUL, and delegates to the view append. -/
def AppendCStr (c : ColumnIxJson) (str : Bytes) : ColumnIxJson :=
  c.Append (str.takeWhile (fun b => b != 0))

/-- Member `Append(std::string&& steal_value)`: moves the string into `append_data_`
and pushes a view over the stored string's bytes. -/
def AppendMove (c : ColumnIxJson) (steal_value : Bytes) : ColumnIxJson :=
  { c with
    append_data := c.append_data ++ [steal_value],
    items := c.items ++ [View.owned c.append_data.length steal_value.length] }

/-- Member `AppendNoManagedLifetime(str)`: pushes the borrowed view directly, neither
copying nor owning the bytes. -/
def AppendNoManagedLifetime (c : ColumnIxJson) (str : Bytes) : ColumnIxJson :=
  { c with items := c.items ++ [View.external str] }

/-- Member `Clear()`: `items_.clear(); blocks_.clear(); append_data_.clear()` (the
`shrink_to_fit` call does not change observable state). -/
def Clear (_c : ColumnIxJson) : ColumnIxJson := ⟨[], [], []⟩

/-- Member `Slice(begin, len)`: a fresh column; when `begin < Size()`, `len` is
clamped to `Size() - begin`, one block sized to the exact total of the selected rows
is pushed, and each selected row is re-appended (public `Append` on the result, which
copies the bytes the source view denotes). -/
def Slice (c : ColumnIxJson) (b l : Nat) : ColumnIxJson :=
  if b < c.items.length then
    let l' := min l (c.items.length - b)
    let r0 : ColumnIxJson := ⟨[], [⟨ComputeTotalSize c.items b l', []⟩], []⟩
    (List.range' b l').foldl
      (fun r i => r.Append (c.resolve (c.items.getD i (View.external [])))) r0
  else ⟨[], [], []⟩

/-- Member `CloneEmpty()`: a fresh empty column of the same concrete type. -/
def CloneEmpty (_c : ColumnIxJson) : ColumnIxJson := ⟨[], [], []⟩

end ColumnIxJson

/-- An argument column seen through the abstract `Column` interface (a `ColumnRef` or
`Column&`): either a column of this concrete type, or a column of some other concrete
type, on which `As<ColumnIxJson>` yields null and `dynamic_cast<ColumnIxJson&>`
throws. -/
inductive ColumnRef where
  | ix (c : ColumnIxJson)
  | other (typeName : String)
  deriving DecidableEq

namespace ColumnIxJson

/-- The loop of `ColumnIxJson::Append(ColumnRef)`:
`for (size_t i = 0; i < column->Size(); ++i) this->AppendUnsafe((*col)[i]);`.
The bound `column->Size()` is re-read on every iteration, so when the argument aliases
the destination (`selfAlias = true`) both the bound and the row fetched are read from
the destination's current state.  `fuel` bounds how many iterations are unfolded;
`none` means the loop did not complete within `fuel` iterations. -/
def AppendColumnLoop (fuel : Nat) (dest : ColumnIxJson) (src : ColumnIxJson)
    (selfAlias : Bool) (i : Nat) : Option ColumnIxJson :=
  match fuel with
  | 0 => none
  | fuel + 1 =>
    let cur := if selfAlias then dest else src
    if i < cur.Size then
      AppendColumnLoop fuel
        (dest.AppendUnsafeRow (cur.resolve (cur.items.getD i (View.external []))))
        src selfAlias (i + 1)
    else some dest

/-- Member `Append(ColumnRef column)`: when `column->As<ColumnIxJson>()` fails (a
different concrete column type) the whole body is skipped; otherwise the total byte
size of the argument's rows is computed, one block is pushed when none exists or the
current block's remaining capacity is smaller than that total, and the row loop runs.
`selfAlias` records whether `column` aliases `this` (the same object through a shared
pointer); the reads `column->Size()`, `(*col)[i]` and `col->items_` then see the
destination's current state. -/
def AppendColumn (dest : ColumnIxJson) (column : ColumnRef) (selfAlias : Bool)
    (fuel : Nat) : Option ColumnIxJson :=
  match column with
  | .other _ => some dest
  | .ix col =>
    let cur := if selfAlias then dest else col
    let total_size := ComputeTotalSize cur.items 0 cur.items.length
    let dest1 :=
      if dest.blocks.length = 0 ∨ (dest.blocks.getLastD default).GetAvailable < total_size
      then { dest with blocks := dest.blocks ++ [⟨max DEFAULT_BLOCK_SIZE total_size, []⟩] }
      else dest
    AppendColumnLoop fuel dest1 col selfAlias 0

/-- Member `Swap(Column& other)`: `dynamic_cast<ColumnIxJson&>(other)` throws
`std::bad_cast` when `other` is a different concrete type (modelled as the error
result); on success the three members `items_`, `blocks_`, `append_data_` — the whole
state — are exchanged.  The result is the pair (new this, new other). -/
def Swap (c : ColumnIxJson) (other : ColumnRef) :
    Except String (ColumnIxJson × ColumnRef) :=
  match other with
  | .ix col =>
    .ok (⟨col.items, col.blocks, col.append_data⟩, .ix ⟨c.items, c.blocks, c.append_data⟩)
  | .other _ => .error "std::bad_cast"

end ColumnIxJson

/-- The 8-byte little-endian digits used by the modelled wire codec: `encLE k n` is
the `k` base-256 digits of `n`, least significant first. -/
def encLE : Nat → Nat → Bytes
  | 0, _ => []
  | k + 1, n => n % 256 :: encLE k (n / 256)

/-- Decoding of base-256 digits, least significant first. -/
def decLE : Bytes → Nat
  | [] => 0
  | b :: bs => b + 256 * decLE bs

namespace WireFormat

/-- Modelled from the spec: `WireFormat::ReadUInt64` of wire_format.h, which is not
among the given sources.  Per §6/§4.3 of the spec it reads an 8-byte unsigned
length prefix from the input stream, failing when the stream is too short. -/
def ReadUInt64 (s : Bytes) : Option (Nat × Bytes) :=
  if 8 ≤ s.length then some (decLE (s.take 8), s.drop 8) else none

/-- Modelled from the spec: `WireFormat::ReadBytes` of wire_format.h, which is not
among the given sources.  It reads exactly `len` bytes from the input stream into the
caller-supplied destination, failing when the stream is too short. -/
def ReadBytes (s : Bytes) (len : Nat) : Option (Bytes × Bytes) :=
  if len ≤ s.length then some (s.take len, s.drop len) else none

/-- Modelled from the spec: `WireFormat::WriteObject` of wire_format.h, which is not
among the given sources.  Per §6 it writes a byte view as its length prefix (the
8-byte unsigned encoding, bit-for-bit the inverse of `ReadUInt64`) followed by the raw
bytes. -/
def WriteObject (str : Bytes) : Bytes :=
  encLE 8 str.length ++ str

end WireFormat

namespace ColumnIxJson

/-- The row loop of `ColumnIxJson::LoadBody`.  Each iteration reads the 8-byte length
prefix; pushes a block of capacity `max(DEFAULT_BLOCK_SIZE, len)` when no block exists
or `len` exceeds the current block's remaining capacity; reads `len` bytes directly
into the block's tail and pushes the resulting view (the `ReadBytes` into
`GetCurrentWritePos()` followed by `ConsumeTailAsStringViewUnsafe(len)` is exactly the
action of the private `AppendUnsafe` on the bytes read).  Returns the success flag,
the column state, and the remaining stream. -/
def LoadBodyLoop (c : ColumnIxJson) (s : Bytes) (rows : Nat) :
    Bool × ColumnIxJson × Bytes :=
  match rows with
  | 0 => (true, c, s)
  | rows + 1 =>
    match WireFormat.ReadUInt64 s with
    | none => (false, c, s)
    | some (len, s1) =>
      let c1 :=
        if c.blocks.length = 0 ∨ (c.blocks.getLastD default).GetAvailable < len then
          { c with blocks := c.blocks ++ [⟨max DEFAULT_BLOCK_SIZE len, []⟩] }
        else c
      match WireFormat.ReadBytes s1 len with
      | none => (false, c1, s1)
      | some (bytes, s2) => LoadBodyLoop (c1.AppendUnsafeRow bytes) s2 rows

/-- Member `LoadBody(input, rows)`: clears `items_` and `blocks_` (note that
`append_data_` is not cleared), reserves, then runs the row loop.  Returns the boolean
result together with the final column state. -/
def LoadBody (c : ColumnIxJson) (s : Bytes) (rows : Nat) : Bool × ColumnIxJson :=
  let c0 : ColumnIxJson := { c with items := [], blocks := [] }
  let r := LoadBodyLoop c0 s rows
  (r.1, r.2.1)

/-- Member `SaveBody(output)`: writes each row through `WireFormat::WriteObject`, in
row-index order; the output stream is the accumulated byte list. -/
def SaveBody (c : ColumnIxJson) : Bytes :=
  c.items.foldl (fun out item => out ++ WireFormat.WriteObject (c.resolve item)) []

end ColumnIxJson

/-- One single-value append operation, used to state frame properties over arbitrary
sequences of the four append variants. -/
inductive AppendOp where
  | view (str : Bytes)
  | cstr (str : Bytes)
  | move (str : Bytes)
  | noManaged (str : Bytes)
  deriving DecidableEq

/-- Application of one single-value append variant. -/
def applyOp (c : ColumnIxJson) : AppendOp → ColumnIxJson
  | .view str => c.Append str
  | .cstr str => c.AppendCStr str
  | .move str => c.AppendMove str
  | .noManaged str => c.AppendNoManagedLifetime str

/-- Application of a sequence of single-value append operations, oldest first. -/
def applyOps (c : ColumnIxJson) (ops : List AppendOp) : ColumnIxJson :=
  ops.foldl applyOp c

/-- A view is well formed for a column state when it denotes a region that actually
lies inside the written part of the storage it points into. -/
def viewOK (c : ColumnIxJson) (v : View) : Bool :=
  match v with
  | .arena b off len =>
    match c.blocks[b]? with
    | some blk => decide (off + len ≤ blk.data.length)
    | none => false
  | .owned i len =>
    match c.append_data[i]? with
    | some s => decide (s.length = len)
    | none => false
  | .external _ => true

/-- Well-formedness of a column state: every row-index entry is a well-formed view.
Every state reachable through the public interface satisfies this. -/
def WF (c : ColumnIxJson) : Bool := c.items.all (viewOK c)

/-- Storage extension between two column states: every arena block's written bytes
are extended (never truncated or overwritten) and every owned-data entry is preserved.
All mutating operations only extend storage, which is what keeps earlier views
byte-stable. -/
structure Extends (c c' : ColumnIxJson) : Prop where
  blocksExt : ∀ (i : Nat) (blk : Block), c.blocks[i]? = some blk →
    ∃ (blk' : Block) (t : Bytes), c'.blocks[i]? = some blk' ∧ blk'.data = blk.data ++ t
  ownedExt : ∀ (i : Nat) (s : Bytes), c.append_data[i]? = some s → c'.append_data[i]? = some s

/-- Greedy parse of at most `n` length-prefixed rows from a byte stream, mirroring
exactly the reads `LoadBodyLoop` performs; it stops at the first incomplete row. -/
def parseRows (s : Bytes) : Nat → List Bytes
  | 0 => []
  | n + 1 =>
    match WireFormat.ReadUInt64 s with
    | none => []
    | some (len, s1) =>
      match WireFormat.ReadBytes s1 len with
      | none => []
      | some (bytes, s2) => bytes :: parseRows s2 n

/-- The wire image of a list of rows: each row length-prefixed, concatenated. -/
def encodeRows (rs : List Bytes) : Bytes :=
  (rs.map WireFormat.WriteObject).flatten

/-! ### Basic list helpers -/

theorem mem_of_getElem_eq {α} {l : List α} {n : Nat} {a : α} (h : l[n]? = some a) :
    a ∈ l := by
  have h1 : n < l.length := by
    by_contra hn
    rw [List.getElem?_eq_none (Nat.le_of_not_lt hn)] at h
    exact Option.noConfusion h
  rw [List.getElem?_eq_getElem h1] at h
  have h2 := Option.some.inj h
  subst h2
  exact l.getElem_mem h1

theorem getLast_decomp {α} {l : List α} {a : α} (h : l.getLast? = some a) :
    l = l.dropLast ++ [a] := by
  have hne : l ≠ [] := by
    intro he
    subst he
    exact Option.noConfusion h
  have h2 : l.getLast hne = a := by
    have h3 := List.getLast?_eq_getLast l hne
    rw [h3] at h
    exact Option.some.inj h
  rw [← h2]
  exact (List.dropLast_append_getLast hne).symm

theorem getLastD_of_getLast_eq {α} {l : List α} {a d : α} (h : l.getLast? = some a) :
    l.getLastD d = a := by
  rw [List.getLastD_eq_getLast?, h]
  rfl

theorem exists_getLast_of_ne_nil {α} {l : List α} (h : l ≠ []) :
    ∃ a, l.getLast? = some a :=
  ⟨l.getLast h, List.getLast?_eq_getLast l h⟩

/-! ### Extension and view stability -/

theorem Extends.rfl (c : ColumnIxJson) : Extends c c := by
  constructor
  · intro i blk h
    exact ⟨blk, [], h, by simp⟩
  · intro i s h
    exact h

theorem Extends.trans {a b c : ColumnIxJson} (h1 : Extends a b) (h2 : Extends b c) :
    Extends a c := by
  constructor
  · intro i blk h
    obtain ⟨blk', t, hb, hd⟩ := h1.blocksExt i blk h
    obtain ⟨blk'', t', hc, hd'⟩ := h2.blocksExt i blk' hb
    exact ⟨blk'', t ++ t', hc, by rw [hd', hd, List.append_assoc]⟩
  · intro i s h
    exact h2.ownedExt i s (h1.ownedExt i s h)

theorem viewOK_mono {c c' : ColumnIxJson} {v : View} (hext : Extends c c')
    (h : viewOK c v = true) : viewOK c' v = true := by
  cases v with
  | arena b off len =>
    simp only [viewOK] at h ⊢
    cases hb : c.blocks[b]? with
    | none => rw [hb] at h; exact absurd h (by simp)
    | some blk =>
      rw [hb] at h
      have h2 : off + len ≤ blk.data.length := of_decide_eq_true h
      obtain ⟨blk', t, hb', hd⟩ := hext.blocksExt b blk hb
      rw [hb']
      show decide (off + len ≤ blk'.data.length) = true
      apply decide_eq_true
      rw [hd, List.length_append]
      omega
  | owned i len =>
    simp only [viewOK] at h ⊢
    cases hs : c.append_data[i]? with
    | none => rw [hs] at h; exact absurd h (by simp)
    | some s =>
      rw [hs] at h
      rw [hext.ownedExt i s hs]
      exact h
  | external bs => rfl

theorem resolve_eq_of_extends {c c' : ColumnIxJson} {v : View} (hext : Extends c c')
    (h : viewOK c v = true) : c'.resolve v = c.resolve v := by
  cases v with
  | arena b off len =>
    simp only [viewOK] at h
    cases hb : c.blocks[b]? with
    | none => rw [hb] at h; exact absurd h (by simp)
    | some blk =>
      rw [hb] at h
      have h2 : off + len ≤ blk.data.length := of_decide_eq_true h
      obtain ⟨blk', t, hb', hd⟩ := hext.blocksExt b blk hb
      simp only [ColumnIxJson.resolve]
      rw [hb, hb']
      show (blk'.data.drop off).take len = (blk.data.drop off).take len
      rw [hd]
      rw [List.drop_append_of_le_length (Nat.le_trans (Nat.le_add_right _ _) h2)]
      rw [List.take_append_of_le_length]
      rw [List.length_drop]
      omega
  | owned i len =>
    simp only [viewOK] at h
    cases hs : c.append_data[i]? with
    | none => rw [hs] at h; exact absurd h (by simp)
    | some s =>
      simp only [ColumnIxJson.resolve]
      rw [hs, hext.ownedExt i s hs]
  | external bs => rfl

theorem WF_spec {c : ColumnIxJson} (h : WF c = true) :
    ∀ v ∈ c.items, viewOK c v = true := by
  intro v hv
  exact List.all_eq_true.1 h v hv

theorem rows_eq_of_extends {c c' : ColumnIxJson} (hext : Extends c c')
    (hwf : WF c = true) (hitems : c'.items = c.items) : c'.Rows = c.Rows := by
  unfold ColumnIxJson.Rows
  rw [hitems]
  apply List.map_congr_left
  intro v hv
  exact resolve_eq_of_extends hext (WF_spec hwf v hv)

theorem WF_of_extends {c c' : ColumnIxJson} (hext : Extends c c')
    (hwf : WF c = true) (hitems : c'.items = c.items) : WF c' = true := by
  unfold WF
  rw [hitems]
  apply List.all_eq_true.2
  intro v hv
  exact viewOK_mono hext (WF_spec hwf v hv)

theorem At_eq_rows_getElem (c : ColumnIxJson) (n : Nat) :
    c.At n = c.Rows[n]? := by
  unfold ColumnIxJson.At ColumnIxJson.Rows
  rw [List.getElem?_map]

/-! ### Step lemmas for the individual operations -/

theorem pushBlock_extends (c : ColumnIxJson) (nb : Block) :
    Extends c { c with blocks := c.blocks ++ [nb] } := by
  constructor
  · intro i blk h
    refine ⟨blk, [], ?_, by simp⟩
    have hi : i < c.blocks.length := by
      by_contra hn
      rw [List.getElem?_eq_none (Nat.le_of_not_lt hn)] at h
      exact Option.noConfusion h
    show (c.blocks ++ [nb])[i]? = some blk
    rw [List.getElem?_append_left hi]
    exact h
  · intro i s h
    exact h

/-- Everything the private `AppendUnsafe` guarantees when a block exists: one new
arena view is pushed whose resolution is exactly the appended bytes, storage is only
extended, well-formedness is preserved, and the block count does not change. -/
theorem appendUnsafeRow_spec (c : ColumnIxJson) (str : Bytes) (blk : Block)
    (hlast : c.blocks.getLast? = some blk) :
    Extends c (c.AppendUnsafeRow str) ∧
    (c.AppendUnsafeRow str).items =
      c.items ++ [View.arena (c.blocks.length - 1) blk.data.length str.length] ∧
    (c.AppendUnsafeRow str).blocks.length = c.blocks.length ∧
    (c.AppendUnsafeRow str).blocks.getLast? =
      some { blk with data := blk.data ++ str } ∧
    (c.AppendUnsafeRow str).append_data = c.append_data ∧
    viewOK (c.AppendUnsafeRow str)
      (View.arena (c.blocks.length - 1) blk.data.length str.length) = true ∧
    (c.AppendUnsafeRow str).resolve
      (View.arena (c.blocks.length - 1) blk.data.length str.length) = str := by
  have hdec := getLast_decomp hlast
  have hlen : c.blocks.dropLast.length = c.blocks.length - 1 := List.length_dropLast c.blocks
  have hlen' : c.blocks.length = c.blocks.dropLast.length + 1 := by
    rw [hdec, List.length_append, List.length_dropLast]
    simp
  set nb : Block := { blk with data := blk.data ++ str } with hnb
  have heq : c.AppendUnsafeRow str =
      { c with blocks := c.blocks.dropLast ++ [nb],
               items := c.items ++ [View.arena (c.blocks.length - 1) blk.data.length str.length] } := by
    unfold ColumnIxJson.AppendUnsafeRow
    rw [hlast]
    rfl
  have hget : ∀ i : Nat, i < c.blocks.dropLast.length →
      (c.blocks.dropLast ++ [nb])[i]? = c.blocks[i]? := by
    intro i hi
    rw [List.getElem?_append_left hi]
    conv_rhs => rw [hdec]
    rw [List.getElem?_append_left hi]
  have hgetlast : (c.blocks.dropLast ++ [nb])[c.blocks.length - 1]? = some nb := by
    rw [← hlen]
    exact List.getElem?_concat_length _ _
  have hext : Extends c (c.AppendUnsafeRow str) := by
    rw [heq]
    constructor
    · intro i b hib
      by_cases hi : i < c.blocks.dropLast.length
      · refine ⟨b, [], ?_, by simp⟩
        show (c.blocks.dropLast ++ [nb])[i]? = some b
        rw [hget i hi]
        exact hib
      · have hi2 : i < c.blocks.length := by
          by_contra hn
          rw [List.getElem?_eq_none (Nat.le_of_not_lt hn)] at hib
          exact Option.noConfusion hib
        have hieq : i = c.blocks.length - 1 := by omega
        have hb2 : b = blk := by
          have hsome : c.blocks[i]? = some blk := by
            conv_lhs => rw [hdec]
            rw [hieq, ← hlen]
            exact List.getElem?_concat_length _ _
          rw [hsome] at hib
          exact (Option.some.inj hib).symm
        refine ⟨nb, str, ?_, by rw [hb2]⟩
        show (c.blocks.dropLast ++ [nb])[i]? = some nb
        rw [hieq]
        exact hgetlast
    · intro i s hib
      exact hib
  refine ⟨hext, ?_, ?_, ?_, ?_, ?_, ?_⟩
  · rw [heq]
  · rw [heq]
    show (c.blocks.dropLast ++ [nb]).length = c.blocks.length
    rw [List.length_append, List.length_singleton]
    omega
  · rw [heq]
    show (c.blocks.dropLast ++ [nb]).getLast? = some nb
    exact List.getLast?_concat _
  · rw [heq]
  · rw [heq]
    show viewOK _ (View.arena (c.blocks.length - 1) blk.data.length str.length) = true
    simp only [viewOK]
    rw [hgetlast]
    apply decide_eq_true
    simp only [hnb, List.length_append]
    exact Nat.le_refl _
  · rw [heq]
    show ColumnIxJson.resolve _ (View.arena (c.blocks.length - 1) blk.data.length str.length) = str
    simp only [ColumnIxJson.resolve]
    rw [hgetlast]
    show ((blk.data ++ str).drop blk.data.length).take str.length = str
    rw [List.drop_left, List.take_length]

theorem appendUnsafeRow_blocks_ne {c : ColumnIxJson} (h : c.blocks ≠ []) (str : Bytes) :
    (c.AppendUnsafeRow str).blocks ≠ [] := by
  obtain ⟨blk, hlast⟩ := exists_getLast_of_ne_nil h
  obtain ⟨-, -, hlen, -, -, -, -⟩ := appendUnsafeRow_spec c str blk hlast
  intro hnil
  rw [hnil] at hlen
  simp at hlen
  exact h (List.length_eq_zero.1 hlen.symm)

/-- Behaviour of the private `AppendUnsafe` at the level of rows: appends `str`. -/
theorem appendUnsafeRow_rows {c : ColumnIxJson} (hne : c.blocks ≠ []) (str : Bytes)
    (hwf : WF c = true) :
    (c.AppendUnsafeRow str).Rows = c.Rows ++ [str] ∧
    WF (c.AppendUnsafeRow str) = true := by
  obtain ⟨blk, hlast⟩ := exists_getLast_of_ne_nil hne
  obtain ⟨hext, hitems, -, -, -, hok, hres⟩ := appendUnsafeRow_spec c str blk hlast
  constructor
  · unfold ColumnIxJson.Rows
    rw [hitems, List.map_append]
    congr 1
    · apply List.map_congr_left
      intro v hv
      exact resolve_eq_of_extends hext (WF_spec hwf v hv)
    · simp only [List.map_cons, List.map_nil]
      rw [hres]
  · unfold WF
    rw [hitems]
    apply List.all_eq_true.2
    intro v hv
    rcases List.mem_append.1 hv with hv1 | hv2
    · exact viewOK_mono hext (WF_spec hwf v hv1)
    · rcases List.mem_singleton.1 hv2 with rfl
      exact hok

/-- Appending through `AppendUnsafeRow` on any state that extends `c` without new
items behaves, relative to `c`, as pushing one arena view resolving to `str`. -/
theorem appendUnsafeRow_via (c c' : ColumnIxJson) (str : Bytes)
    (hext : Extends c c') (hit : c'.items = c.items) (had : c'.append_data = c.append_data)
    (hne : c'.blocks ≠ []) :
    Extends c (c'.AppendUnsafeRow str) ∧
    (∃ b off, (c'.AppendUnsafeRow str).items = c.items ++ [View.arena b off str.length]) ∧
    (c'.AppendUnsafeRow str).blocks ≠ [] ∧
    (c'.AppendUnsafeRow str).append_data = c.append_data ∧
    (WF c = true → WF (c'.AppendUnsafeRow str) = true ∧
      (c'.AppendUnsafeRow str).Rows = c.Rows ++ [str]) := by
  obtain ⟨blk, hlast⟩ := exists_getLast_of_ne_nil hne
  obtain ⟨hext2, hitems, -, -, had2, -, -⟩ := appendUnsafeRow_spec c' str blk hlast
  refine ⟨Extends.trans hext hext2, ⟨_, _, by rw [hitems, hit]⟩,
    appendUnsafeRow_blocks_ne hne str, by rw [had2, had], ?_⟩
  intro hwf
  have hwf' : WF c' = true := WF_of_extends hext hwf hit
  have hrows' : c'.Rows = c.Rows := rows_eq_of_extends hext hwf hit
  obtain ⟨hr, hw⟩ := appendUnsafeRow_rows hne str hwf'
  exact ⟨hw, by rw [hr, hrows']⟩

/-- The managed-copy `Append(string_view)` pushes one arena view resolving to `str`;
it only extends storage, keeps the owned store, and preserves well-formedness. -/
theorem append_spec (c : ColumnIxJson) (str : Bytes) :
    Extends c (c.Append str) ∧
    (∃ b off, (c.Append str).items = c.items ++ [View.arena b off str.length]) ∧
    (c.Append str).blocks ≠ [] ∧
    (c.Append str).append_data = c.append_data ∧
    (WF c = true → WF (c.Append str) = true ∧ (c.Append str).Rows = c.Rows ++ [str]) := by
  by_cases hc : c.blocks.length = 0 ∨ (c.blocks.getLastD default).GetAvailable < str.length
  · have heq : c.Append str =
        ColumnIxJson.AppendUnsafeRow
          { c with blocks := c.blocks ++ [⟨max DEFAULT_BLOCK_SIZE str.length, []⟩] } str := by
      unfold ColumnIxJson.Append
      rw [if_pos hc]
    rw [heq]
    exact appendUnsafeRow_via c _ str (pushBlock_extends c _) rfl rfl (by simp)
  · have heq : c.Append str = c.AppendUnsafeRow str := by
      unfold ColumnIxJson.Append
      rw [if_neg hc]
    rw [heq]
    have hne : c.blocks ≠ [] := by
      intro hnil
      exact hc (Or.inl (by rw [hnil]; rfl))
    exact appendUnsafeRow_via c c str (Extends.rfl c) rfl rfl hne

/-- The move append `Append(std::string&&)` pushes one owned-store view resolving to
the moved string; arena blocks are untouched. -/
theorem appendMove_spec (c : ColumnIxJson) (str : Bytes) :
    Extends c (c.AppendMove str) ∧
    (c.AppendMove str).items = c.items ++ [View.owned c.append_data.length str.length] ∧
    (c.AppendMove str).blocks = c.blocks ∧
    (WF c = true → WF (c.AppendMove str) = true ∧
      (c.AppendMove str).Rows = c.Rows ++ [str]) := by
  have hget : (c.append_data ++ [str])[c.append_data.length]? = some str :=
    List.getElem?_concat_length _ _
  have hext : Extends c (c.AppendMove str) := by
    constructor
    · intro i blk h
      exact ⟨blk, [], h, by simp⟩
    · intro i s h
      have hi : i < c.append_data.length := by
        by_contra hn
        rw [List.getElem?_eq_none (Nat.le_of_not_lt hn)] at h
        exact Option.noConfusion h
      show (c.append_data ++ [str])[i]? = some s
      rw [List.getElem?_append_left hi]
      exact h
  have hok : viewOK (c.AppendMove str) (View.owned c.append_data.length str.length) = true := by
    simp only [viewOK, ColumnIxJson.AppendMove]
    rw [hget]
    simp
  have hres : (c.AppendMove str).resolve (View.owned c.append_data.length str.length) = str := by
    simp only [ColumnIxJson.resolve, ColumnIxJson.AppendMove]
    rw [hget]
  refine ⟨hext, rfl, rfl, ?_⟩
  intro hwf
  constructor
  · unfold WF
    show (c.items ++ [View.owned c.append_data.length str.length]).all _ = true
    apply List.all_eq_true.2
    intro v hv
    rcases List.mem_append.1 hv with hv1 | hv2
    · exact viewOK_mono hext (WF_spec hwf v hv1)
    · rcases List.mem_singleton.1 hv2 with rfl
      exact hok
  · unfold ColumnIxJson.Rows
    show (c.items ++ [View.owned c.append_data.length str.length]).map _ = _
    rw [List.map_append]
    congr 1
    · apply List.map_congr_left
      intro v hv
      exact resolve_eq_of_extends hext (WF_spec hwf v hv)
    · simp only [List.map_cons, List.map_nil]
      rw [hres]

/-- The borrow append `AppendNoManagedLifetime` pushes one external view resolving to
`str`; no storage changes at all. -/
theorem appendNML_spec (c : ColumnIxJson) (str : Bytes) :
    Extends c (c.AppendNoManagedLifetime str) ∧
    (c.AppendNoManagedLifetime str).items = c.items ++ [View.external str] ∧
    (c.AppendNoManagedLifetime str).blocks = c.blocks ∧
    (WF c = true → WF (c.AppendNoManagedLifetime str) = true ∧
      (c.AppendNoManagedLifetime str).Rows = c.Rows ++ [str]) := by
  have hext : Extends c (c.AppendNoManagedLifetime str) := by
    constructor
    · intro i blk h
      exact ⟨blk, [], h, by simp⟩
    · intro i s h
      exact h
  refine ⟨hext, rfl, rfl, ?_⟩
  intro hwf
  constructor
  · unfold WF
    show (c.items ++ [View.external str]).all _ = true
    apply List.all_eq_true.2
    intro v hv
    rcases List.mem_append.1 hv with hv1 | hv2
    · exact viewOK_mono hext (WF_spec hwf v hv1)
    · rcases List.mem_singleton.1 hv2 with rfl
      rfl
  · unfold ColumnIxJson.Rows
    show (c.items ++ [View.external str]).map _ = _
    rw [List.map_append]
    congr 1

/-- Any single-value append variant: storage extends, exactly one item is pushed,
well-formedness is preserved. -/
theorem applyOp_spec (c : ColumnIxJson) (op : AppendOp) :
    Extends c (applyOp c op) ∧
    (∃ v, (applyOp c op).items = c.items ++ [v]) ∧
    (WF c = true → WF (applyOp c op) = true) := by
  cases op with
  | view str =>
    obtain ⟨h1, ⟨b, off, h2⟩, -, -, h5⟩ := append_spec c str
    exact ⟨h1, ⟨_, h2⟩, fun hwf => (h5 hwf).1⟩
  | cstr str =>
    obtain ⟨h1, ⟨b, off, h2⟩, -, -, h5⟩ := append_spec c (str.takeWhile (fun b => b != 0))
    exact ⟨h1, ⟨_, h2⟩, fun hwf => (h5 hwf).1⟩
  | move str =>
    obtain ⟨h1, h2, -, h4⟩ := appendMove_spec c str
    exact ⟨h1, ⟨_, h2⟩, fun hwf => (h4 hwf).1⟩
  | noManaged str =>
    obtain ⟨h1, h2, -, h4⟩ := appendNML_spec c str
    exact ⟨h1, ⟨_, h2⟩, fun hwf => (h4 hwf).1⟩

/-- Reading an existing row is unchanged by one item-pushing, storage-extending step. -/
theorem at_preserved {c c' : ColumnIxJson} (hext : Extends c c') (hwf : WF c = true)
    {v : View} (hit : c'.items = c.items ++ [v]) {i : Nat} (hi : i < c.items.length) :
    c'.At i = c.At i := by
  unfold ColumnIxJson.At
  rw [hit, List.getElem?_append_left hi]
  cases hv : c.items[i]? with
  | none => rfl
  | some v0 =>
    show some (c'.resolve v0) = some (c.resolve v0)
    rw [resolve_eq_of_extends hext (WF_spec hwf v0 (mem_of_getElem_eq hv))]

/-! ### The bulk-append loop -/

theorem appendUnsafeRow_items_len {c : ColumnIxJson} (h : c.blocks ≠ []) (str : Bytes) :
    (c.AppendUnsafeRow str).items.length = c.items.length + 1 := by
  obtain ⟨blk, hlast⟩ := exists_getLast_of_ne_nil h
  obtain ⟨-, hitems, -, -, -, -, -⟩ := appendUnsafeRow_spec c str blk hlast
  rw [hitems, List.length_append]
  rfl

/-- Folding `AppendUnsafeRow` over a list of byte strings (what the bulk-append row
loop amounts to for a non-aliased source): sizes add up, the last block persists, and
under well-formedness the rows are exactly appended. -/
theorem foldl_AUR_spec :
    ∀ (strs : List Bytes) (dest : ColumnIxJson), dest.blocks ≠ [] →
      (strs.foldl ColumnIxJson.AppendUnsafeRow dest).items.length
        = dest.items.length + strs.length ∧
      (strs.foldl ColumnIxJson.AppendUnsafeRow dest).blocks ≠ [] ∧
      (WF dest = true → WF (strs.foldl ColumnIxJson.AppendUnsafeRow dest) = true ∧
        (strs.foldl ColumnIxJson.AppendUnsafeRow dest).Rows = dest.Rows ++ strs) := by
  intro strs
  induction strs with
  | nil =>
    intro dest hne
    exact ⟨rfl, hne, fun hwf => ⟨hwf, by simp⟩⟩
  | cons str rest ih =>
    intro dest hne
    have hne2 : (dest.AppendUnsafeRow str).blocks ≠ [] := appendUnsafeRow_blocks_ne hne str
    obtain ⟨ihlen, ihne, ihwf⟩ := ih (dest.AppendUnsafeRow str) hne2
    refine ⟨?_, ihne, ?_⟩
    · show (rest.foldl ColumnIxJson.AppendUnsafeRow (dest.AppendUnsafeRow str)).items.length = _
      rw [ihlen, appendUnsafeRow_items_len hne str, List.length_cons]
      omega
    · intro hwf
      obtain ⟨hrows, hwf2⟩ := appendUnsafeRow_rows hne str hwf
      obtain ⟨hwf3, hrows3⟩ := ihwf hwf2
      refine ⟨hwf3, ?_⟩
      show (rest.foldl ColumnIxJson.AppendUnsafeRow (dest.AppendUnsafeRow str)).Rows = _
      rw [hrows3, hrows, List.append_assoc]
      rfl

/-- When the bulk-append loop is run on a source distinct from the destination and
completes, the result is the fold of `AppendUnsafeRow` over the source's remaining
resolved rows. -/
theorem appendColumnLoop_false_some :
    ∀ (fuel i : Nat) (dest c' src : ColumnIxJson),
      ColumnIxJson.AppendColumnLoop fuel dest src false i = some c' →
      c' = ((src.items.drop i).map src.resolve).foldl ColumnIxJson.AppendUnsafeRow dest := by
  intro fuel
  induction fuel with
  | zero =>
    intro i dest c' src h
    exact absurd h (by simp [ColumnIxJson.AppendColumnLoop])
  | succ fuel ih =>
    intro i dest c' src h
    rw [ColumnIxJson.AppendColumnLoop] at h
    simp only [Bool.false_eq_true, if_false] at h
    by_cases hi : i < src.Size
    · rw [if_pos hi] at h
      have h2 := ih (i + 1) _ c' src h
      have hi' : i < src.items.length := hi
      rw [List.drop_eq_getElem_cons hi', List.map_cons, List.foldl_cons]
      have hgd : src.items.getD i (View.external []) = src.items[i] := by
        rw [List.getD_eq_getElem?_getD, List.getElem?_eq_getElem hi']
        rfl
      rw [← hgd]
      exact h2
    · rw [if_neg hi] at h
      have h2 := Option.some.inj h
      have hdrop : src.items.drop i = [] :=
        List.drop_eq_nil_of_le (Nat.le_of_not_lt hi)
      rw [hdrop]
      exact h2.symm

/-- When the bulk-append loop is run with the source aliasing the destination and at
least one row is present, every appended row grows the re-read bound by one, so no
amount of fuel completes the loop. -/
theorem appendColumnLoop_true_none (src : ColumnIxJson) :
    ∀ (fuel n i : Nat) (dest : ColumnIxJson), dest.blocks ≠ [] →
      dest.items.length = n + i → 0 < n →
      ColumnIxJson.AppendColumnLoop fuel dest src true i = none := by
  intro fuel
  induction fuel with
  | zero =>
    intro n i dest hne hlen hn
    simp [ColumnIxJson.AppendColumnLoop]
  | succ fuel ih =>
    intro n i dest hne hlen hn
    rw [ColumnIxJson.AppendColumnLoop]
    simp only [if_true]
    have hi : i < dest.Size := by
      show i < dest.items.length
      omega
    rw [if_pos hi]
    apply ih n (i + 1)
    · exact appendUnsafeRow_blocks_ne hne _
    · rw [appendUnsafeRow_items_len hne _]
      omega
    · exact hn

/-- Unfolding of `ColumnIxJson.AppendColumn` for a same-typed, non-aliased argument, when the loop
completes: sizes add and rows concatenate. -/
theorem appendColumn_false_spec (A B : ColumnIxJson) (fuel : Nat) (c' : ColumnIxJson)
    (h : ColumnIxJson.AppendColumn A (.ix B) false fuel = some c') :
    c'.Size = A.Size + B.Size ∧
    (WF A = true → c'.Rows = A.Rows ++ B.Rows) := by
  rw [ColumnIxJson.AppendColumn] at h
  simp only [Bool.false_eq_true, if_false] at h
  set total_size := ComputeTotalSize B.items 0 B.items.length with htot
  by_cases hc : A.blocks.length = 0 ∨ (A.blocks.getLastD default).GetAvailable < total_size
  · rw [if_pos hc] at h
    set A1 : ColumnIxJson :=
      { A with blocks := A.blocks ++ [⟨max DEFAULT_BLOCK_SIZE total_size, []⟩] } with hA1
    have hfold := appendColumnLoop_false_some fuel 0 A1 c' B h
    rw [List.drop_zero] at hfold
    have hne1 : A1.blocks ≠ [] := by simp [hA1]
    obtain ⟨hlen, -, hwf⟩ := foldl_AUR_spec (B.items.map B.resolve) A1 hne1
    subst hfold
    constructor
    · simp only [ColumnIxJson.Size]
      rw [hlen, List.length_map]
    · intro hwfA
      have hextA : Extends A A1 := pushBlock_extends A _
      have hwfA1 : WF A1 = true := WF_of_extends hextA hwfA rfl
      have hrowsA1 : A1.Rows = A.Rows := rows_eq_of_extends hextA hwfA rfl
      obtain ⟨-, hrows⟩ := hwf hwfA1
      rw [hrows, hrowsA1]
      rfl
  · rw [if_neg hc] at h
    have hne1 : A.blocks ≠ [] := by
      intro hnil
      exact hc (Or.inl (by rw [hnil]; rfl))
    have hfold := appendColumnLoop_false_some fuel 0 A c' B h
    rw [List.drop_zero] at hfold
    obtain ⟨hlen, -, hwf⟩ := foldl_AUR_spec (B.items.map B.resolve) A hne1
    subst hfold
    constructor
    · simp only [ColumnIxJson.Size]
      rw [hlen, List.length_map]
    · intro hwfA
      obtain ⟨-, hrows⟩ := hwf hwfA
      rw [hrows]
      rfl

/-! ### Wire-format lemmas -/

theorem encLE_length : ∀ (k n : Nat), (encLE k n).length = k := by
  intro k
  induction k with
  | zero => intro n; rfl
  | succ k ih =>
    intro n
    show (n % 256 :: encLE k (n / 256)).length = k + 1
    rw [List.length_cons, ih]

theorem decLE_encLE : ∀ (k n : Nat), n < 256 ^ k → decLE (encLE k n) = n := by
  intro k
  induction k with
  | zero =>
    intro n h
    have hn : n = 0 := Nat.lt_one_iff.1 (by simpa using h)
    subst hn
    rfl
  | succ k ih =>
    intro n h
    show decLE (n % 256 :: encLE k (n / 256)) = n
    show n % 256 + 256 * decLE (encLE k (n / 256)) = n
    rw [ih (n / 256) ?_]
    · omega
    · have h2 : 256 ^ (k + 1) = 256 ^ k * 256 := by ring
      rw [h2] at h
      exact Nat.div_lt_of_lt_mul (by omega)

theorem foldl_out {α : Type} (f : α → Bytes) :
    ∀ (l : List α) (acc : Bytes),
      l.foldl (fun out x => out ++ f x) acc = acc ++ (l.map f).flatten := by
  intro l
  induction l with
  | nil => intro acc; simp
  | cons a rest ih =>
    intro acc
    show rest.foldl (fun out x => out ++ f x) (acc ++ f a) = _
    rw [ih (acc ++ f a)]
    simp [List.append_assoc]

/-- The stream `SaveBody` produces is the wire image of the column's rows. -/
theorem saveBody_eq (c : ColumnIxJson) : c.SaveBody = encodeRows c.Rows := by
  unfold ColumnIxJson.SaveBody encodeRows ColumnIxJson.Rows
  rw [foldl_out (fun item => WireFormat.WriteObject (c.resolve item)) c.items []]
  rw [List.map_map]
  rfl

theorem parseRows_length_le : ∀ (n : Nat) (s : Bytes), (parseRows s n).length ≤ n := by
  intro n
  induction n with
  | zero => intro s; exact Nat.le_refl 0
  | succ n ih =>
    intro s
    show (parseRows s (n + 1)).length ≤ n + 1
    rw [parseRows]
    cases hu : WireFormat.ReadUInt64 s with
    | none => simp
    | some p =>
      obtain ⟨len, s1⟩ := p
      cases hr : WireFormat.ReadBytes s1 len with
      | none => simp [hr]
      | some q =>
        obtain ⟨bytes, s2⟩ := q
        simp only [hr, List.length_cons]
        exact Nat.succ_le_succ (ih s2)

/-- Parsing back the wire image of a list of rows whose lengths fit in 64 bits
recovers exactly those rows. -/
theorem parseRows_encodeRows :
    ∀ (rs : List Bytes), (∀ r ∈ rs, r.length < 2 ^ 64) →
      parseRows (encodeRows rs) rs.length = rs := by
  intro rs
  induction rs with
  | nil => intro h; rfl
  | cons r rest ih =>
    intro h
    have henc : encodeRows (r :: rest) = encLE 8 r.length ++ (r ++ encodeRows rest) := by
      unfold encodeRows WireFormat.WriteObject
      simp [List.append_assoc]
    rw [henc, List.length_cons, parseRows]
    have hlen8 : (encLE 8 r.length).length = 8 := encLE_length 8 r.length
    have hu : WireFormat.ReadUInt64 (encLE 8 r.length ++ (r ++ encodeRows rest)) =
        some (r.length, r ++ encodeRows rest) := by
      unfold WireFormat.ReadUInt64
      rw [if_pos]
      · rw [List.take_left' hlen8, List.drop_left' hlen8]
        rw [decLE_encLE 8 r.length (by norm_num at h ⊢; exact (h.1 : r.length < 2 ^ 64))]
      · rw [List.length_append, hlen8]
        omega
    rw [hu]
    have hr : WireFormat.ReadBytes (r ++ encodeRows rest) r.length =
        some (r, encodeRows rest) := by
      unfold WireFormat.ReadBytes
      rw [if_pos]
      · rw [List.take_left, List.drop_left]
      · rw [List.length_append]
        omega
    show (match WireFormat.ReadBytes (r ++ encodeRows rest) r.length with
          | none => []
          | some (bytes, s2) => bytes :: parseRows s2 rest.length) = r :: rest
    rw [hr]
    show r :: parseRows (encodeRows rest) rest.length = r :: rest
    rw [ih (fun x hx => h x (List.mem_cons_of_mem r hx))]

/-! ### LoadBody characterization -/

/-- The row loop of `LoadBody` appends exactly the greedily parseable rows to the
column, preserves well-formedness, and succeeds exactly when all `n` rows parse. -/
theorem loadBodyLoop_spec :
    ∀ (n : Nat) (c : ColumnIxJson) (s : Bytes), WF c = true →
      WF (ColumnIxJson.LoadBodyLoop c s n).2.1 = true ∧
      (ColumnIxJson.LoadBodyLoop c s n).2.1.Rows = c.Rows ++ parseRows s n ∧
      ((ColumnIxJson.LoadBodyLoop c s n).1 = true ↔ (parseRows s n).length = n) := by
  intro n
  induction n with
  | zero =>
    intro c s hwf
    exact ⟨hwf, by simp [ColumnIxJson.LoadBodyLoop, parseRows], by simp [ColumnIxJson.LoadBodyLoop, parseRows]⟩
  | succ n ih =>
    intro c s hwf
    rw [ColumnIxJson.LoadBodyLoop, parseRows]
    cases hu : WireFormat.ReadUInt64 s with
    | none =>
      refine ⟨hwf, by simp, by simp⟩
    | some p =>
      obtain ⟨len, s1⟩ := p
      simp only
      set c1 := if c.blocks.length = 0 ∨ (c.blocks.getLastD default).GetAvailable < len
        then { c with blocks := c.blocks ++ [⟨max DEFAULT_BLOCK_SIZE len, []⟩] }
        else c with hc1
      have hext1 : Extends c c1 := by
        rw [hc1]
        by_cases hcond : c.blocks.length = 0 ∨ (c.blocks.getLastD default).GetAvailable < len
        · rw [if_pos hcond]
          exact pushBlock_extends c _
        · rw [if_neg hcond]
          exact Extends.rfl c
      have hit1 : c1.items = c.items := by
        rw [hc1]
        by_cases hcond : c.blocks.length = 0 ∨ (c.blocks.getLastD default).GetAvailable < len
        · rw [if_pos hcond]
        · rw [if_neg hcond]
      have hne1 : c1.blocks ≠ [] := by
        rw [hc1]
        by_cases hcond : c.blocks.length = 0 ∨ (c.blocks.getLastD default).GetAvailable < len
        · rw [if_pos hcond]
          simp
        · rw [if_neg hcond]
          intro hnil
          exact hcond (Or.inl (by rw [hnil]; rfl))
      have hwf1 : WF c1 = true := WF_of_extends hext1 hwf hit1
      have hrows1 : c1.Rows = c.Rows := rows_eq_of_extends hext1 hwf hit1
      cases hr : WireFormat.ReadBytes s1 len with
      | none =>
        refine ⟨hwf1, by simp [hrows1], by simp⟩
      | some q =>
        obtain ⟨bytes, s2⟩ := q
        simp only
        obtain ⟨hrows2, hwf2⟩ := appendUnsafeRow_rows hne1 bytes hwf1
        obtain ⟨ihwf, ihrows, ihflag⟩ := ih (c1.AppendUnsafeRow bytes) s2 hwf2
        refine ⟨ihwf, ?_, ?_⟩
        · rw [ihrows, hrows2, hrows1]
          simp [List.append_assoc]
        · rw [ihflag, List.length_cons]
          omega

/-- The full `LoadBody`: the prior row/block state is discarded, the resulting rows
are exactly the greedily parseable prefix of the stream, and the call reports success
exactly when all `rows` rows parse. -/
theorem loadBody_spec (c : ColumnIxJson) (s : Bytes) (n : Nat) :
    WF (c.LoadBody s n).2 = true ∧
    (c.LoadBody s n).2.Rows = parseRows s n ∧
    ((c.LoadBody s n).1 = true ↔ (parseRows s n).length = n) := by
  have h0 : WF { c with items := ([] : List View), blocks := ([] : List Block) } = true := rfl
  obtain ⟨h1, h2, h3⟩ :=
    loadBodyLoop_spec n { c with items := ([] : List View), blocks := ([] : List Block) } s h0
  refine ⟨h1, ?_, h3⟩
  rw [show (c.LoadBody s n).2 = (ColumnIxJson.LoadBodyLoop
    { c with items := ([] : List View), blocks := ([] : List Block) } s n).2.1 from rfl]
  rw [h2]
  rfl

/-! ### Building columns by repeated append, and the slice loop -/

theorem foldl_Append_spec :
    ∀ (ss : List Bytes) (c : ColumnIxJson), WF c = true →
      WF (ss.foldl ColumnIxJson.Append c) = true ∧
      (ss.foldl ColumnIxJson.Append c).Rows = c.Rows ++ ss := by
  intro ss
  induction ss with
  | nil =>
    intro c hwf
    exact ⟨hwf, by simp⟩
  | cons str rest ih =>
    intro c hwf
    obtain ⟨-, -, -, -, h5⟩ := append_spec c str
    obtain ⟨hwf1, hrows1⟩ := h5 hwf
    obtain ⟨ihwf, ihrows⟩ := ih (c.Append str) hwf1
    refine ⟨ihwf, ?_⟩
    show (rest.foldl ColumnIxJson.Append (c.Append str)).Rows = _
    rw [ihrows, hrows1, List.append_assoc]
    rfl

/-- The row-copy loop of `Slice`: appending the resolved source rows `[b, b + l')`
onto an all-arena accumulator yields exactly those rows after the accumulator's,
keeps every item an arena view, and preserves well-formedness. -/
theorem slice_fold_spec (c : ColumnIxJson) :
    ∀ (l' b : Nat) (r0 : ColumnIxJson), b + l' ≤ c.items.length → WF r0 = true →
      (∀ v ∈ r0.items, ∃ bi off len, v = View.arena bi off len) →
      WF ((List.range' b l').foldl
        (fun r i => r.Append (c.resolve (c.items.getD i (View.external [])))) r0) = true ∧
      ((List.range' b l').foldl
        (fun r i => r.Append (c.resolve (c.items.getD i (View.external [])))) r0).Rows
        = r0.Rows ++ ((c.items.drop b).take l').map c.resolve ∧
      (∀ v ∈ ((List.range' b l').foldl
        (fun r i => r.Append (c.resolve (c.items.getD i (View.external [])))) r0).items,
        ∃ bi off len, v = View.arena bi off len) := by
  intro l'
  induction l' with
  | zero =>
    intro b r0 hb hwf0 harena
    refine ⟨hwf0, by simp, harena⟩
  | succ l' ih =>
    intro b r0 hb hwf0 harena
    have hblt : b < c.items.length := by omega
    have hgd : c.items.getD b (View.external []) = c.items[b] := by
      rw [List.getD_eq_getElem?_getD, List.getElem?_eq_getElem hblt]
      rfl
    rw [List.range'_succ b l' 1]
    set str := c.resolve (c.items.getD b (View.external [])) with hstr
    obtain ⟨-, ⟨bi, off, hit1⟩, -, -, h5⟩ := append_spec r0 str
    obtain ⟨hwf1, hrows1⟩ := h5 hwf0
    have harena1 : ∀ v ∈ (r0.Append str).items, ∃ bi off len, v = View.arena bi off len := by
      intro v hv
      rw [hit1] at hv
      rcases List.mem_append.1 hv with hv1 | hv2
      · exact harena v hv1
      · rcases List.mem_singleton.1 hv2 with rfl
        exact ⟨bi, off, str.length, rfl⟩
    have hb1 : (b + 1) + l' ≤ c.items.length := by omega
    obtain ⟨ihwf, ihrows, iharena⟩ := ih (b + 1) (r0.Append str) hb1 hwf1 harena1
    refine ⟨ihwf, ?_, iharena⟩
    show (List.foldl _ (r0.Append str) (List.range' (b + 1) l')).Rows = _
    rw [ihrows, hrows1]
    rw [List.drop_eq_getElem_cons hblt, List.take_succ_cons, List.map_cons]
    rw [List.append_assoc]
    rw [hstr, hgd]
    rfl

/-! ### The claims -/

/-- C1: for every finite sequence of byte strings whose lengths fit the 64-bit
length prefix (zero-length strings and strings longer than the default block size
included), building a column by appending them in order, calling `SaveBody`, and
then calling `LoadBody` on a fresh column with the same stream and the same row
count succeeds and yields a column whose rows, read via `At` in index order, equal
the original sequence in the same order. -/
theorem save_load_round_trip (ss : List Bytes) (hlen : ∀ r ∈ ss, r.length < 2 ^ 64) :
    (ColumnIxJson.mk0.LoadBody
      ((ss.foldl ColumnIxJson.Append ColumnIxJson.mk0).SaveBody) ss.length).1 = true ∧
    ∀ i : Nat,
      (ColumnIxJson.mk0.LoadBody
        ((ss.foldl ColumnIxJson.Append ColumnIxJson.mk0).SaveBody) ss.length).2.At i
        = ss[i]? := by
  have hwf0 : WF ColumnIxJson.mk0 = true := rfl
  obtain ⟨hwfb, hrowsb⟩ := foldl_Append_spec ss ColumnIxJson.mk0 hwf0
  have hrows : (ss.foldl ColumnIxJson.Append ColumnIxJson.mk0).Rows = ss := by
    rw [hrowsb]
    rfl
  have hsave : (ss.foldl ColumnIxJson.Append ColumnIxJson.mk0).SaveBody = encodeRows ss := by
    rw [saveBody_eq, hrows]
  obtain ⟨-, hparse, hflag⟩ :=
    loadBody_spec ColumnIxJson.mk0 (encodeRows ss) ss.length
  have hpe := parseRows_encodeRows ss hlen
  constructor
  · rw [hsave]
    exact hflag.2 (by rw [hpe])
  · intro i
    rw [hsave, At_eq_rows_getElem, hparse, hpe]

theorem save_load_round_trip_witness :
    ((∀ r ∈ [[97], [], [1, 2, 3]], List.length r < 2 ^ 64) ∧
      (ColumnIxJson.mk0.LoadBody
        (([[97], [], [1, 2, 3]].foldl ColumnIxJson.Append ColumnIxJson.mk0).SaveBody) 3).1
        = true) ∧
    (ColumnIxJson.mk0.LoadBody
      (([[97], [], [1, 2, 3]].foldl ColumnIxJson.Append ColumnIxJson.mk0).SaveBody) 3).2.At 2
      = some [1, 2, 3] :=
  ⟨⟨by decide, (save_load_round_trip [[97], [], [1, 2, 3]] (by decide)).1⟩,
    (save_load_round_trip [[97], [], [1, 2, 3]] (by decide)).2 2⟩

/-- C2 counterexample: a stream holding two complete rows, loaded with a declared
row count of three, makes LoadBody report failure, yet the column is left holding
the two rows already read — not empty as the claim states. -/
theorem loadBody_partial_counterexample :
    (ColumnIxJson.mk0.LoadBody
      (WireFormat.WriteObject [97] ++ WireFormat.WriteObject [98]) 3).1 = false ∧
    (ColumnIxJson.mk0.LoadBody
      (WireFormat.WriteObject [97] ++ WireFormat.WriteObject [98]) 3).2.Size ≠ 0 := by
  decide

/-- C2 (amended): if a length-prefix read or byte read fails before all rows are
processed, `LoadBody` returns failure, and the column — whose previous row and block
state was discarded on entry — is left holding exactly the rows fully read before
the failure, i.e. a (possibly non-empty) partial prefix rather than the empty
column. -/
theorem loadBody_failure_partial (c : ColumnIxJson) (s : Bytes) (n : Nat)
    (hfail : (c.LoadBody s n).1 = false) :
    (c.LoadBody s n).2.Rows = parseRows s n ∧ (parseRows s n).length < n := by
  obtain ⟨-, h2, h3⟩ := loadBody_spec c s n
  refine ⟨h2, ?_⟩
  have hne : ¬(parseRows s n).length = n := by
    intro heq
    have hflag := h3.2 heq
    rw [hflag] at hfail
    exact Bool.noConfusion hfail
  have hle := parseRows_length_le n s
  omega

theorem loadBody_failure_partial_witness :
    (ColumnIxJson.mk0.LoadBody
      (WireFormat.WriteObject [97] ++ WireFormat.WriteObject [98]) 3).2.Rows =
      parseRows (WireFormat.WriteObject [97] ++ WireFormat.WriteObject [98]) 3 ∧
    (parseRows (WireFormat.WriteObject [97] ++ WireFormat.WriteObject [98]) 3).length < 3 :=
  loadBody_failure_partial ColumnIxJson.mk0
    (WireFormat.WriteObject [97] ++ WireFormat.WriteObject [98]) 3 (by decide)

/-- C3: `Slice(begin, len)` returns a new column holding exactly the rows at
positions `[begin, min(begin + len, n))` of the source, in order; if `begin ≥ n` the
result is the empty column; and every row of the slice is an arena view into the
slice's own blocks (well formed for the slice itself), so the slice's bytes do not
depend on the source column's continued existence — clearing the source leaves them
intact. -/
theorem slice_spec (c : ColumnIxJson) (b l : Nat) :
    ((c.Slice b l).Size = if b < c.Size then min l (c.Size - b) else 0) ∧
    (∀ j : Nat, j < (c.Slice b l).Size → (c.Slice b l).At j = c.At (b + j)) ∧
    (c.Size ≤ b → c.Slice b l = ⟨[], [], []⟩) ∧
    WF (c.Slice b l) = true ∧
    (∀ v ∈ (c.Slice b l).items, ∃ bi off len, v = View.arena bi off len) := by
  by_cases hb : b < c.items.length
  · have hsl : c.Slice b l =
        (List.range' b (min l (c.items.length - b))).foldl
          (fun r i => r.Append (c.resolve (c.items.getD i (View.external []))))
          ⟨[], [⟨ComputeTotalSize c.items b (min l (c.items.length - b)), []⟩], []⟩ := by
      unfold ColumnIxJson.Slice
      rw [if_pos hb]
    set l' := min l (c.items.length - b) with hl'
    have hbound : b + l' ≤ c.items.length := by
      have := Nat.min_le_right l (c.items.length - b)
      omega
    have hwf0 : WF (⟨[], [⟨ComputeTotalSize c.items b l', []⟩], []⟩ : ColumnIxJson) = true := rfl
    obtain ⟨hwf, hrows, harena⟩ :=
      slice_fold_spec c l' b ⟨[], [⟨ComputeTotalSize c.items b l', []⟩], []⟩ hbound hwf0
        (by intro v hv; exact absurd hv (List.not_mem_nil v))
    have hrows2 : (c.Slice b l).Rows = ((c.items.drop b).take l').map c.resolve := by
      rw [hsl, hrows]
      rfl
    have hlen2 : (c.Slice b l).Size = l' := by
      have h1 : (c.Slice b l).Rows.length = (c.Slice b l).Size := List.length_map _ _
      rw [← h1, hrows2, List.length_map, List.length_take, List.length_drop]
      omega
    refine ⟨?_, ?_, ?_, ?_, ?_⟩
    · rw [hlen2, if_pos (show b < c.Size from hb)]
      rfl
    · intro j hj
      rw [hlen2] at hj
      rw [At_eq_rows_getElem, hrows2, List.getElem?_map]
      rw [List.getElem?_take, if_pos hj, List.getElem?_drop]
      rfl
    · intro hle
      exact absurd hb (Nat.not_lt.2 hle)
    · rw [hsl]
      exact hwf
    · rw [hsl]
      exact harena
  · have hsl : c.Slice b l = ⟨[], [], []⟩ := by
      unfold ColumnIxJson.Slice
      rw [if_neg hb]
    refine ⟨?_, ?_, fun _ => hsl, ?_, ?_⟩
    · rw [hsl, if_neg (show ¬b < c.Size from hb)]
      rfl
    · intro j hj
      rw [hsl] at hj
      exact absurd hj (by simp [ColumnIxJson.Size])
    · rw [hsl]
      rfl
    · rw [hsl]
      intro v hv
      exact absurd hv (List.not_mem_nil v)

theorem slice_spec_witness :
    ((ColumnIxJson.mk0.Append [120]).Append [121] |>.Append [122] |>.Append [119]
      |>.Slice 1 2).Size = 2 ∧
    ((ColumnIxJson.mk0.Append [120]).Append [121] |>.Append [122] |>.Append [119]
      |>.Slice 1 2).At 0 = some [121] ∧
    ((ColumnIxJson.mk0.Append [120]).Append [121] |>.Append [122] |>.Append [119]
      |>.Slice 1 2).At 1 = some [122] := by
  have h := slice_spec ((ColumnIxJson.mk0.Append [120]).Append [121]
    |>.Append [122] |>.Append [119]) 1 2
  refine ⟨?_, ?_, ?_⟩
  · rw [h.1]
    decide
  · rw [h.2.1 0 (by rw [h.1]; decide)]
    decide
  · rw [h.2.1 1 (by rw [h.1]; decide)]
    decide

/-- C4 (amended): `Append(string_view)` allocates a new arena block exactly when no
block exists or the current (last) block's remaining capacity is strictly smaller
than the string's length, and any newly allocated block has capacity
`max(DEFAULT_BLOCK_SIZE, str.length)`.  A string longer than `DEFAULT_BLOCK_SIZE`
therefore gets a dedicated block sized exactly to that string whenever no existing
block retains more than `DEFAULT_BLOCK_SIZE` bytes of remaining capacity — which
holds after every successful operation but not at every reachable state: a failed
`LoadBody` whose oversized length prefix is not followed by enough bytes leaves an
empty oversized block that a later oversized `Append` reuses instead of allocating
a dedicated block (see the counterexample below).  The hypothesis `hsized` restricts
to states where the natural-number `GetAvailable` agrees with the C++ `size_t`
subtraction. -/
theorem append_block_allocation (c : ColumnIxJson) (str : Bytes)
    (hsized : ∀ blk ∈ c.blocks, blk.size ≤ blk.capacity) :
    ((c.Append str).blocks.length = c.blocks.length + 1 ↔
      (c.blocks = [] ∨ (c.blocks.getLastD default).GetAvailable < str.length)) ∧
    ((c.blocks = [] ∨ (c.blocks.getLastD default).GetAvailable < str.length) →
      ((c.Append str).blocks.getLastD default).capacity = max DEFAULT_BLOCK_SIZE str.length) ∧
    (DEFAULT_BLOCK_SIZE < str.length →
      (∀ blk ∈ c.blocks, blk.GetAvailable ≤ DEFAULT_BLOCK_SIZE) →
      (c.Append str).blocks.length = c.blocks.length + 1 ∧
      ((c.Append str).blocks.getLastD default).capacity = str.length) := by
  have hcond : (c.blocks.length = 0 ∨ (c.blocks.getLastD default).GetAvailable < str.length)
      ↔ (c.blocks = [] ∨ (c.blocks.getLastD default).GetAvailable < str.length) := by
    constructor
    · rintro (h | h)
      · exact Or.inl (List.length_eq_zero.1 h)
      · exact Or.inr h
    · rintro (h | h)
      · exact Or.inl (by rw [h]; rfl)
      · exact Or.inr h
  by_cases hc : c.blocks.length = 0 ∨ (c.blocks.getLastD default).GetAvailable < str.length
  · have heq : c.Append str =
        ColumnIxJson.AppendUnsafeRow
          { c with blocks := c.blocks ++ [⟨max DEFAULT_BLOCK_SIZE str.length, []⟩] } str := by
      unfold ColumnIxJson.Append
      rw [if_pos hc]
    set c1 : ColumnIxJson :=
      { c with blocks := c.blocks ++ [⟨max DEFAULT_BLOCK_SIZE str.length, []⟩] } with hc1
    have hlast : c1.blocks.getLast? = some ⟨max DEFAULT_BLOCK_SIZE str.length, []⟩ :=
      List.getLast?_concat _
    obtain ⟨-, -, hblen, hblast, -, -, -⟩ := appendUnsafeRow_spec c1 str _ hlast
    have hlen : (c.Append str).blocks.length = c.blocks.length + 1 := by
      rw [heq, hblen, hc1]
      rw [List.length_append]
      rfl
    have hcap : ((c.Append str).blocks.getLastD default).capacity
        = max DEFAULT_BLOCK_SIZE str.length := by
      rw [heq, getLastD_of_getLast_eq hblast]
    refine ⟨⟨fun _ => hcond.1 hc, fun _ => hlen⟩, fun _ => hcap, fun hbig hav => ⟨hlen, ?_⟩⟩
    rw [hcap]
    exact Nat.max_eq_right (Nat.le_of_lt hbig)
  · have heq : c.Append str = c.AppendUnsafeRow str := by
      unfold ColumnIxJson.Append
      rw [if_neg hc]
    have hne : c.blocks ≠ [] := by
      intro hnil
      exact hc (Or.inl (by rw [hnil]; rfl))
    obtain ⟨blk, hlast⟩ := exists_getLast_of_ne_nil hne
    obtain ⟨-, -, hblen, -, -, -, -⟩ := appendUnsafeRow_spec c str blk hlast
    have hlen : (c.Append str).blocks.length = c.blocks.length := by
      rw [heq, hblen]
    refine ⟨⟨fun hplus => absurd (hcond.2 ?_) hc, fun hor => absurd (hcond.2 hor) hc⟩,
      fun hor => absurd (hcond.2 hor) hc, fun hbig hav => ?_⟩
    · rw [hlen] at hplus
      omega
    · exfalso
      apply hc
      rcases List.eq_nil_or_concat c.blocks with hnil | ⟨ys, a, hconcat⟩
      · exact Or.inl (by rw [hnil]; rfl)
      · rw [List.concat_eq_append] at hconcat
        refine Or.inr ?_
        have hmem : a ∈ c.blocks := by
          rw [hconcat]
          simp
        have hlastD : c.blocks.getLastD default = a := by
          apply getLastD_of_getLast_eq
          rw [hconcat]
          exact List.getLast?_concat _
        rw [hlastD]
        have := hav a hmem
        omega

/-- C4 counterexample: the claim's "a string longer than 4096 bytes gets a
dedicated block sized exactly to that string" fails at a reachable state.  A
`LoadBody` that reads the length prefix 4097 and then hits end of stream returns
failure, leaving one empty block of capacity 4097; appending a 4097-byte string to
that column allocates no new block at all — the block count is unchanged, the
string being copied into the leftover oversized block instead of a dedicated one. -/
theorem append_oversized_reuse_counterexample :
    DEFAULT_BLOCK_SIZE < (List.replicate 4097 (7 : Nat)).length ∧
    ((ColumnIxJson.mk0.LoadBody (encLE 8 4097) 1).2.Append
        (List.replicate 4097 (7 : Nat))).blocks.length
      = (ColumnIxJson.mk0.LoadBody (encLE 8 4097) 1).2.blocks.length := by
  have hc1 : (ColumnIxJson.mk0.LoadBody (encLE 8 4097) 1).2
      = (⟨[], [⟨4097, []⟩], []⟩ : ColumnIxJson) := by
    decide
  constructor
  · rw [List.length_replicate]
    norm_num [DEFAULT_BLOCK_SIZE]
  · rw [hc1]
    have hcond : ¬((⟨[], [⟨4097, []⟩], []⟩ : ColumnIxJson).blocks.length = 0 ∨
        ((⟨[], [⟨4097, []⟩], []⟩ : ColumnIxJson).blocks.getLastD default).GetAvailable
          < (List.replicate 4097 (7 : Nat)).length) := by
      rw [List.length_replicate]
      decide
    have heq : (⟨[], [⟨4097, []⟩], []⟩ : ColumnIxJson).Append (List.replicate 4097 (7 : Nat))
        = (⟨[], [⟨4097, []⟩], []⟩ : ColumnIxJson).AppendUnsafeRow
            (List.replicate 4097 (7 : Nat)) := by
      unfold ColumnIxJson.Append
      rw [if_neg hcond]
    rw [heq]
    obtain ⟨-, -, hblen, -, -, -, -⟩ := appendUnsafeRow_spec
      (⟨[], [⟨4097, []⟩], []⟩ : ColumnIxJson) (List.replicate 4097 (7 : Nat)) ⟨4097, []⟩ rfl
    rw [hblen]

theorem append_block_allocation_witness :
    ((ColumnIxJson.mk0.Append (List.replicate 4097 7)).blocks.length
        = ColumnIxJson.mk0.blocks.length + 1 ↔
      (ColumnIxJson.mk0.blocks = [] ∨
        (ColumnIxJson.mk0.blocks.getLastD default).GetAvailable
          < (List.replicate 4097 7).length)) ∧
    ((ColumnIxJson.mk0.Append (List.replicate 4097 7)).blocks.length
        = ColumnIxJson.mk0.blocks.length + 1 ∧
      ((ColumnIxJson.mk0.Append (List.replicate 4097 7)).blocks.getLastD default).capacity
        = (List.replicate 4097 7).length) := by
  have h := append_block_allocation ColumnIxJson.mk0 (List.replicate 4097 7)
    (by intro blk hblk; exact absurd hblk (List.not_mem_nil blk))
  exact ⟨h.1, h.2.2 (by rw [List.length_replicate]; norm_num [DEFAULT_BLOCK_SIZE])
    (by intro blk hblk; exact absurd hblk (List.not_mem_nil blk))⟩

/-- C5: every single-value append variant increases `Size()` by exactly one; a bulk
append of a same-typed (distinct) column of `m` rows that runs to completion
increases `Size()` by exactly `m`; and after `Clear()` the size is zero. -/
theorem size_invariant (c : ColumnIxJson) (s1 s2 s3 s4 : Bytes) :
    (c.Append s1).Size = c.Size + 1 ∧
    (c.AppendCStr s2).Size = c.Size + 1 ∧
    (c.AppendMove s3).Size = c.Size + 1 ∧
    (c.AppendNoManagedLifetime s4).Size = c.Size + 1 ∧
    (∀ (src : ColumnIxJson) (fuel : Nat) (c' : ColumnIxJson),
      ColumnIxJson.AppendColumn c (.ix src) false fuel = some c' →
      c'.Size = c.Size + src.Size) ∧
    c.Clear.Size = 0 := by
  refine ⟨?_, ?_, ?_, ?_, ?_, rfl⟩
  · obtain ⟨-, ⟨bi, off, hit⟩, -, -, -⟩ := append_spec c s1
    show (c.Append s1).items.length = c.items.length + 1
    rw [hit, List.length_append]
    rfl
  · obtain ⟨-, ⟨bi, off, hit⟩, -, -, -⟩ := append_spec c (s2.takeWhile (fun b => b != 0))
    show (c.AppendCStr s2).items.length = c.items.length + 1
    rw [show c.AppendCStr s2 = c.Append (s2.takeWhile (fun b => b != 0)) from rfl]
    rw [hit, List.length_append]
    rfl
  · obtain ⟨-, hit, -, -⟩ := appendMove_spec c s3
    show (c.AppendMove s3).items.length = c.items.length + 1
    rw [hit, List.length_append]
    rfl
  · obtain ⟨-, hit, -, -⟩ := appendNML_spec c s4
    show (c.AppendNoManagedLifetime s4).items.length = c.items.length + 1
    rw [hit, List.length_append]
    rfl
  · intro src fuel c' h
    exact (appendColumn_false_spec c src fuel c' h).1

theorem size_invariant_witness :
    ((ColumnIxJson.mk0.Append [5]).Append [6]).Size = (ColumnIxJson.mk0.Append [5]).Size + 1 ∧
    ((ColumnIxJson.mk0.Append [5]).AppendMove [7, 8]).Size
      = (ColumnIxJson.mk0.Append [5]).Size + 1 ∧
    (⟨[View.arena 0 0 1, View.arena 0 1 1],
        [⟨DEFAULT_BLOCK_SIZE, [5, 9]⟩], []⟩ : ColumnIxJson).Size
      = (ColumnIxJson.mk0.Append [5]).Size + (ColumnIxJson.mk0.Append [9]).Size ∧
    (ColumnIxJson.mk0.Append [5]).Clear.Size = 0 := by
  have h := size_invariant (ColumnIxJson.mk0.Append [5]) [6] [] [7, 8] []
  refine ⟨h.1, h.2.2.1, ?_, h.2.2.2.2.2⟩
  exact h.2.2.2.2.1 (ColumnIxJson.mk0.Append [9]) 2
    ⟨[View.arena 0 0 1, View.arena 0 1 1], [⟨DEFAULT_BLOCK_SIZE, [5, 9]⟩], []⟩ (by decide)

/-- C6: for any well-formed column and any already-present row `i`, performing any
further sequence of the four single-value append operations leaves the bytes
returned by `At i` unchanged. -/
theorem view_stability (c : ColumnIxJson) (ops : List AppendOp) (i : Nat)
    (hwf : WF c = true) (hi : i < c.Size) :
    (applyOps c ops).At i = c.At i := by
  induction ops generalizing c with
  | nil => rfl
  | cons op rest ih =>
    obtain ⟨hext, ⟨v, hit⟩, hwfp⟩ := applyOp_spec c op
    have hstep : (applyOp c op).At i = c.At i :=
      at_preserved hext hwf hit hi
    have hi' : i < (applyOp c op).Size := by
      show i < (applyOp c op).items.length
      rw [hit, List.length_append]
      have : i < c.items.length := hi
      omega
    have ihh := ih (applyOp c op) (hwfp hwf) hi'
    show (applyOps (applyOp c op) rest).At i = c.At i
    rw [ihh, hstep]

theorem view_stability_witness :
    (applyOps (ColumnIxJson.mk0.Append [42])
        [AppendOp.view [1], AppendOp.move [2, 2], AppendOp.noManaged [3],
          AppendOp.cstr [4, 0, 5]]).At 0
      = (ColumnIxJson.mk0.Append [42]).At 0 :=
  view_stability (ColumnIxJson.mk0.Append [42])
    [AppendOp.view [1], AppendOp.move [2, 2], AppendOp.noManaged [3], AppendOp.cstr [4, 0, 5]]
    0 (by decide) (by decide)

/-- C7: bulk-appending a distinct same-typed column `B` onto `A`, when the loop runs
to completion, leaves `A` with its own rows followed by `B`'s rows in order, each
byte-identical (`B`, a value, is untouched). -/
theorem bulk_append_spec (A B : ColumnIxJson) (fuel : Nat) (c' : ColumnIxJson)
    (hwfA : WF A = true)
    (h : ColumnIxJson.AppendColumn A (.ix B) false fuel = some c') :
    c'.Size = A.Size + B.Size ∧
    (∀ i : Nat, i < A.Size → c'.At i = A.At i) ∧
    (∀ j : Nat, j < B.Size → c'.At (A.Size + j) = B.At j) := by
  obtain ⟨hsize, hrowsf⟩ := appendColumn_false_spec A B fuel c' h
  have hrows := hrowsf hwfA
  have hlenA : A.Rows.length = A.Size := List.length_map _ _
  refine ⟨hsize, ?_, ?_⟩
  · intro i hi
    rw [At_eq_rows_getElem, hrows, List.getElem?_append_left (by omega), ← At_eq_rows_getElem]
  · intro j hj
    rw [At_eq_rows_getElem, hrows, List.getElem?_append_right (by omega)]
    rw [show A.Size + j - A.Rows.length = j from by omega]
    rw [← At_eq_rows_getElem]

theorem bulk_append_spec_witness :
    (⟨[View.arena 0 0 1, View.arena 0 1 2], [⟨DEFAULT_BLOCK_SIZE, [1, 2, 3]⟩], []⟩
        : ColumnIxJson).Size
      = (ColumnIxJson.mk0.Append [1]).Size + (ColumnIxJson.mk0.AppendMove [2, 3]).Size ∧
    (⟨[View.arena 0 0 1, View.arena 0 1 2], [⟨DEFAULT_BLOCK_SIZE, [1, 2, 3]⟩], []⟩
        : ColumnIxJson).At 0 = (ColumnIxJson.mk0.Append [1]).At 0 ∧
    (⟨[View.arena 0 0 1, View.arena 0 1 2], [⟨DEFAULT_BLOCK_SIZE, [1, 2, 3]⟩], []⟩
        : ColumnIxJson).At ((ColumnIxJson.mk0.Append [1]).Size + 0)
      = (ColumnIxJson.mk0.AppendMove [2, 3]).At 0 := by
  have h := bulk_append_spec (ColumnIxJson.mk0.Append [1]) (ColumnIxJson.mk0.AppendMove [2, 3]) 2
    ⟨[View.arena 0 0 1, View.arena 0 1 2], [⟨DEFAULT_BLOCK_SIZE, [1, 2, 3]⟩], []⟩
    (by decide) (by decide)
  exact ⟨h.1, h.2.1 0 (by decide), h.2.2 0 (by decide)⟩

/-- C8: bulk `Append` with a column of a different concrete type is silently a
no-op: the call completes reporting nothing, and the receiving column's rows,
blocks and owned-data store are all left exactly unchanged. -/
theorem mismatched_append_noop (c : ColumnIxJson) (typeName : String)
    (selfAlias : Bool) (fuel : Nat) :
    ColumnIxJson.AppendColumn c (.other typeName) selfAlias fuel = some c := rfl

/-- C9: `Swap` with a same-typed column exchanges the row index, the arena blocks
and the owned-data store (the whole state); with a column of any other concrete
type it fails with the thrown `std::bad_cast` instead of silently doing nothing. -/
theorem swap_spec (c col : ColumnIxJson) (typeName : String) :
    c.Swap (.ix col) = .ok (col, .ix c) ∧
    c.Swap (.other typeName) = .error "std::bad_cast" :=
  ⟨rfl, rfl⟩

theorem appendColumnLoop_stop (fuel : Nat) (dest src : ColumnIxJson) (sa : Bool) (i : Nat)
    (h : ¬i < (if sa then dest else src).Size) :
    ColumnIxJson.AppendColumnLoop (fuel + 1) dest src sa i = some dest := by
  rw [ColumnIxJson.AppendColumnLoop]
  rw [if_neg h]

/-- C10 (amended): bulk self-append — `Append(ColumnRef)` where the argument aliases
the destination — never terminates when the column is non-empty, for any iteration
bound: the re-read loop bound grows by one with every appended row.  For an empty
column the loop exits at once without appending any rows; the state is returned
unchanged except that, when no arena block exists yet, one fresh empty block of the
default size has been allocated (so it is not a strict no-op on the block state). -/
theorem self_append_divergence (c : ColumnIxJson) (fuel : Nat) :
    (c.items ≠ [] → ColumnIxJson.AppendColumn c (.ix c) true fuel = none) ∧
    (c.items = [] → ColumnIxJson.AppendColumn c (.ix c) true (fuel + 1) =
      some (if c.blocks.length = 0
            then { c with blocks := c.blocks ++ [⟨DEFAULT_BLOCK_SIZE, []⟩] }
            else c)) := by
  constructor
  · intro hne
    show ColumnIxJson.AppendColumnLoop fuel
      (if c.blocks.length = 0 ∨ (c.blocks.getLastD default).GetAvailable
          < ComputeTotalSize c.items 0 c.items.length
       then { c with blocks := c.blocks ++
          [⟨max DEFAULT_BLOCK_SIZE (ComputeTotalSize c.items 0 c.items.length), []⟩] }
       else c) c true 0 = none
    set total := ComputeTotalSize c.items 0 c.items.length with htot
    by_cases hcond : c.blocks.length = 0 ∨ (c.blocks.getLastD default).GetAvailable < total
    · rw [if_pos hcond]
      apply appendColumnLoop_true_none c fuel c.items.length 0
      · simp
      · simp
      · exact List.length_pos.2 hne
    · rw [if_neg hcond]
      apply appendColumnLoop_true_none c fuel c.items.length 0
      · intro hnil
        exact hcond (Or.inl (by rw [hnil]; rfl))
      · simp
      · exact List.length_pos.2 hne
  · intro hnil
    have htot : ComputeTotalSize c.items 0 c.items.length = 0 := by
      rw [hnil]
      rfl
    show ColumnIxJson.AppendColumnLoop (fuel + 1)
      (if c.blocks.length = 0 ∨ (c.blocks.getLastD default).GetAvailable
          < ComputeTotalSize c.items 0 c.items.length
       then { c with blocks := c.blocks ++
          [⟨max DEFAULT_BLOCK_SIZE (ComputeTotalSize c.items 0 c.items.length), []⟩] }
       else c) c true 0 = _
    rw [htot]
    have hcond : (c.blocks.length = 0 ∨ (c.blocks.getLastD default).GetAvailable < 0)
        ↔ c.blocks.length = 0 := by
      constructor
      · rintro (h | h)
        · exact h
        · exact absurd h (Nat.not_lt_zero _)
      · exact Or.inl
    by_cases hb : c.blocks.length = 0
    · rw [if_pos (hcond.2 hb), if_pos hb]
      rw [appendColumnLoop_stop fuel _ c true 0 ?_]
      · rw [Nat.max_zero]
      · show ¬0 < ColumnIxJson.Size _
        simp [ColumnIxJson.Size, hnil]
    · rw [if_neg (fun h => hb (hcond.1 h)), if_neg hb]
      apply appendColumnLoop_stop fuel c c true 0
      show ¬0 < c.Size
      simp [ColumnIxJson.Size, hnil]

/-- C10 counterexample to the claim's no-op tail: on a fresh empty column (no rows,
no blocks) self-append terminates but allocates one default-sized arena block — the
resulting state is not equal to the input, so it is not a strict no-op. -/
theorem self_append_empty_not_noop :
    ColumnIxJson.AppendColumn ColumnIxJson.mk0 (.ix ColumnIxJson.mk0) true 1 =
      some ⟨[], [⟨DEFAULT_BLOCK_SIZE, []⟩], []⟩ ∧
    (⟨[], [⟨DEFAULT_BLOCK_SIZE, []⟩], []⟩ : ColumnIxJson) ≠ ColumnIxJson.mk0 := by
  decide

theorem self_append_divergence_witness :
    ColumnIxJson.AppendColumn (ColumnIxJson.mk0.Append [1])
      (.ix (ColumnIxJson.mk0.Append [1])) true 5 = none ∧
    ColumnIxJson.AppendColumn ColumnIxJson.mk0 (.ix ColumnIxJson.mk0) true 1 =
      some (if ColumnIxJson.mk0.blocks.length = 0
            then { ColumnIxJson.mk0 with
                    blocks := ColumnIxJson.mk0.blocks ++ [⟨DEFAULT_BLOCK_SIZE, []⟩] }
            else ColumnIxJson.mk0) :=
  ⟨(self_append_divergence (ColumnIxJson.mk0.Append [1]) 5).1 (by decide),
    (self_append_divergence ColumnIxJson.mk0 0).2 rfl⟩

end Clickhouse
